import Mathlib

/-!
Verification development for the `rupert` log scanner (src/src/main.rs).

The program scans a directory of mail-server log files.  Each file is parsed
by `parse`: a leading header block is consumed by `EmailHead::push` until the
first empty line, then body lines are classified; lines of the shape
`[LAN access from remote] from <peer> to <mine> <day> <mon> <date> <time>`
emit a `RemoteAccess` event carrying the peer address.  Events from all files
are aggregated into a count table; addresses with more than 100 events are
printed, the rest are summarised as hidden.

Strings are modelled as `List Char` (`Str`).  Rust's `str::split` on the
two-character patterns `": "` / `"] "` and on the single characters `':'` /
`' '` is embedded by the structurally recursive functions `splitChar2` and
`splitChar`, which scan left to right for non-overlapping occurrences of the
pattern, exactly as Rust's splitter does.
-/

namespace Rupert

/-- Rust `&str` / `String` values, modelled as lists of characters. -/
abbrev Str := List Char

/-- Rust `s.split(c)` for a single-character pattern `c`: the list of
segments of `s` between occurrences of `c` (always non-empty; an empty
input yields `[[]]`, matching Rust's `"".split(c) == [""]`). -/
def splitChar (c : Char) : Str → List Str
  | [] => [[]]
  | a :: rest =>
    if a = c then [] :: splitChar c rest
    else
      match splitChar c rest with
      | [] => [[a]]
      | s :: ss => (a :: s) :: ss

/-- Rust `s.split(p)` for a two-character pattern `p = [c1, c2]`: segments of
`s` between non-overlapping occurrences of the pattern, scanning left to
right. -/
def splitChar2 (c1 c2 : Char) : Str → List Str
  | [] => [[]]
  | [a] => [[a]]
  | a :: b :: rest =>
    if a = c1 ∧ b = c2 then [] :: splitChar2 c1 c2 rest
    else
      match splitChar2 c1 c2 (b :: rest) with
      | [] => [[a]]
      | s :: ss => (a :: s) :: ss

/-- Specification-side view of a two-character delimiter: `breakAt2 c1 c2 s`
returns the part of `s` strictly before the FIRST occurrence of the pattern
`[c1, c2]`, together with `some` remainder after that occurrence (everything
to the end of the string), or `none` when the pattern does not occur. -/
def breakAt2 (c1 c2 : Char) : Str → Str × Option Str
  | [] => ([], none)
  | [a] => ([a], none)
  | a :: b :: rest =>
    if a = c1 ∧ b = c2 then ([], some rest)
    else
      let (pre, post) := breakAt2 c1 c2 (b :: rest)
      (a :: pre, post)

/-- An association-list model of `std::collections::HashMap<String, String>`
lookups: the value of the first entry with the given key, if any. -/
def lookupA (k : Str) : List (Str × α) → Option α
  | [] => none
  | (k', v) :: rest => if k' = k then some v else lookupA k rest

/-- `HashMap::insert` on the association-list model: overwrite the entry for
`k` in place when present, otherwise append a new entry. -/
def insertA (k : Str) (v : α) : List (Str × α) → List (Str × α)
  | [] => [(k, v)]
  | (k', v') :: rest => if k' = k then (k, v) :: rest else (k', v') :: insertA k v rest

/-- `HashMap::remove` on the association-list model: the removed value (if
the key was present) together with the map without that entry. -/
def removeA (k : Str) : List (Str × α) → Option α × List (Str × α)
  | [] => (none, [])
  | (k', v) :: rest =>
    if k' = k then (some v, rest)
    else
      let (o, m) := removeA k rest
      (o, (k', v) :: m)

/-- The keys of an association-list map, in entry order. -/
def keysA (m : List (Str × α)) : List Str := m.map (fun kv => kv.1)

/-- The header accumulator of `src/src/main.rs` (struct `EmailHead`): a
header map and a `done` flag set once the terminating blank line is seen. -/
structure EmailHead where
  headers : List (Str × Str)
  done : Bool
deriving DecidableEq, Repr

/-- The key/value pair `EmailHead::push` derives from a non-empty line:
`parts = line.split(": ")`, then `parts.next().zip(parts.next())` — i.e. the
first two segments when the delimiter occurs, and `("", "")` otherwise. -/
def kvOf (line : Str) : Str × Str :=
  match splitChar2 ':' ' ' line with
  | k :: v :: _ => (k, v)
  | _ => ([], [])

/-- `EmailHead::push` (main.rs lines 37–55): reject once `done`; an empty
line sets `done` and is consumed; otherwise insert/overwrite the split
key/value pair and consume.  The returned Bool is the Rust return value. -/
def EmailHead.push (h : EmailHead) (item : Str) : EmailHead × Bool :=
  if h.done then (h, false)
  else if item.length = 0 then ({ h with done := true }, true)
  else
    let (k, v) := kvOf item
    ({ h with headers := insertA k v h.headers }, true)

/-- A remote-access event (struct `RemoteAccess`): the extracted address. -/
structure RemoteAccess where
  address : Str
deriving DecidableEq, Repr

/-- The literal marker `"[LAN access from remote"` of main.rs. -/
def remoteAccessMarker : Str := "[LAN access from remote".data

/-- The literal token `"from"`. -/
def fromWord : Str := "from".data

/-- The literal token `"to"`. -/
def toWord : Str := "to".data

/-- The address the parser builds from the `<peer>` token:
`peer.split(":")` and then `bits.next().unwrap_or("unknown")`. -/
def peerKey (peer : Str) : Str :=
  ((splitChar ':' peer).head?).getD ("unknown".data)

/-- How `parse` treats one body line (main.rs lines 78–93). -/
inductive BodyClass where
  | event (address : Str)
  | unrecognized
  | peripheral
deriving DecidableEq, Repr

/-- Classification of a body line by `parse`: split on `"] "`; exactly two
parts with the first equal to the marker select the access branch, which
splits the descriptor on single spaces and requires the 8-token
`from <peer> to <mine> <day> <mon> <date> <time>` shape; otherwise the line
is peripheral. -/
def classifyBody (line : Str) : BodyClass :=
  match splitChar2 ']' ' ' line with
  | [first, value] =>
    if first = remoteAccessMarker then
      match splitChar ' ' value with
      | [f, peer, t, _mine, _day, _mon, _date, _time] =>
        if f = fromWord ∧ t = toWord then BodyClass.event (peerKey peer)
        else BodyClass.unrecognized
      | _ => BodyClass.unrecognized
    else BodyClass.peripheral
  | _ => BodyClass.peripheral

/-- Decidable predicate for the 8-token access-descriptor shape used by the
inner match of `parse`. -/
def isShape8 (value : Str) : Bool :=
  match splitChar ' ' value with
  | [f, _, t, _, _, _, _, _] => f = fromWord ∧ t = toWord
  | _ => false

/-- The role the `parse` loop gives a line: consumed by the header
accumulator (`push` returned true), or classified as a body line. -/
inductive LineRole where
  | headerLine
  | bodyLine (c : BodyClass)
deriving DecidableEq, Repr

/-- The trace of the `parse` loop over a file's lines: for each line in
order, the accumulator state before the line, the line itself, and the role
the loop gives it.  Mirrors main.rs lines 73–93: `push` first; on `true`,
`continue`; on `false`, classify the same line as body. -/
def parseTrace (h : EmailHead) : List Str → List (EmailHead × Str × LineRole)
  | [] => []
  | l :: ls =>
    let (h', ok) := h.push l
    if ok then (h, l, LineRole.headerLine) :: parseTrace h' ls
    else (h, l, LineRole.bodyLine (classifyBody l)) :: parseTrace h' ls

/-- The events `parse` sends for a list of lines (channel sends modelled as
list emission; delivery always succeeds in this model). -/
def parseEvents (h : EmailHead) : List Str → List RemoteAccess
  | [] => []
  | l :: ls =>
    let (h', ok) := h.push l
    if ok then parseEvents h' ls
    else
      match classifyBody l with
      | BodyClass.event a => RemoteAccess.mk a :: parseEvents h' ls
      | _ => parseEvents h' ls

/-- Model of a per-file I/O error value. -/
structure IoErr where
  msg : Str
deriving DecidableEq, Repr

/-- One input file as `parse` sees it: either the open fails, or it yields a
stream of line reads, each of which may itself fail. -/
inductive FileInput where
  | unopenable (e : IoErr)
  | lines (ls : List (Except IoErr Str))

/-- The lines the `while let Some(Ok(line))` loop actually consumes: the
longest prefix of successful reads — the loop exits at the first failed
read (or at end of file). -/
def availableLines : List (Except IoErr Str) → List Str
  | [] => []
  | Except.ok l :: rest => l :: availableLines rest
  | Except.error _ :: _ => []

/-- The whole of `parse` on one file: the events it emits and its `Result`.
Opening failure propagates as `Err` via `?`; once the file is open the loop
consumes the available lines and `parse` returns `Ok(())` (a failed line
read merely ends the loop). -/
def parseFile (f : FileInput) : List RemoteAccess × Except IoErr Unit :=
  match f with
  | FileInput.unopenable e => ([], Except.error e)
  | FileInput.lines ls => (parseEvents ⟨[], false⟩ (availableLines ls), Except.ok ())

/-- All events emitted across a list of files (the channel fan-in; counts
are insensitive to the interleaving order, so files are listed in turn). -/
def runEvents (files : List FileInput) : List RemoteAccess :=
  (files.map (fun f => (parseFile f).1)).flatten

/-- One step of the receiver loop (main.rs lines 136–140): remove the
existing count (a `u32`, `unwrap_or(0u32)`) and re-insert its successor.
The `u32` successor is modelled as `Nat` addition reduced modulo `2^32`:
in a release build `existing + 1` wraps at `2^32` (a debug build panics at
the same point, so no execution ever stores a non-wrapped count there). -/
def aggStep (m : List (Str × Nat)) (r : RemoteAccess) : List (Str × Nat) :=
  let (existing, m') := removeA r.address m
  m' ++ [(r.address, (existing.getD 0 + 1) % 2^32)]

/-- The aggregator: drain the (already closed) channel contents into the
count table. -/
def aggregate (evs : List RemoteAccess) : List (Str × Nat) :=
  evs.foldl aggStep []

/-- The aggregated table of a whole run over the given files. -/
def runModel (files : List FileInput) : List (Str × Nat) :=
  aggregate (runEvents files)

/-- The number of events in a list carrying the given address. -/
def countAddr (a : Str) : List RemoteAccess → Nat
  | [] => 0
  | r :: rest => (if r.address = a then 1 else 0) + countAddr a rest

/-- Two's-complement wrap of an integer into the signed 32-bit range
`[-2^31, 2^31)` — the value an `i32` holds after (release-build) wrapping
arithmetic. -/
def wrap32i (z : Int) : Int := (z + 2147483648) % 4294967296 - 2147483648

/-- The report loop (main.rs lines 144–153): the printed `(address, count)`
lines in table order, and the hidden tally.  `hidden` is an `i32` in the
source (inferred from `let mut hidden = 0`), so its increment is modelled
with the signed 32-bit wrap `wrap32i` (release build; debug would panic at
the same increment). -/
def reportLoop : List (Str × Nat) → List (Str × Nat) × Int
  | [] => ([], 0)
  | (k, v) :: rest =>
    let (p, hid) := reportLoop rest
    if 100 < v then ((k, v) :: p, hid) else (p, wrap32i (hid + 1))

/-- Model of `CommandLineOption<T>` (main.rs lines 10–14). -/
structure CommandLineOption (α : Type) where
  parsed : Bool
  value : Option α

/-- Model of `CommandLineOptions` (main.rs lines 25–28). -/
structure CommandLineOptions where
  input_dir : CommandLineOption Str

/-- The exact configuration-error message of main.rs line 113 (note the
misspelling `--input-dur`). -/
def configErrMsg : Str := "no '--input-dur'".data

/-- The configuration gate at the head of `run` (main.rs lines 100–113):
take the option value, keep it only when the path is a directory (the
directory test is abstracted as the environment predicate `isDir`), and
otherwise fail with the fixed error message. -/
def configDir (isDir : Str → Bool) (opts : CommandLineOptions) : Except IoErr Str :=
  match opts.input_dir.value with
  | none => Except.error ⟨configErrMsg⟩
  | some p => if isDir p then Except.ok p else Except.error ⟨configErrMsg⟩

/-- The whole of `run`: the configuration gate runs first and its failure
aborts before any directory entry is read (`dirContents`, the environment's
directory listing, is never consulted on the error path); on success the
files are parsed and aggregated. -/
def runFull (isDir : Str → Bool) (opts : CommandLineOptions)
    (dirContents : Str → List FileInput) : Except IoErr (List (Str × Nat)) :=
  match configDir isDir opts with
  | Except.error e => Except.error e
  | Except.ok d => Except.ok (runModel (dirContents d))

/-- The substring of `s` strictly before the first occurrence of the
character `c` (the whole of `s` when `c` does not occur) — the
specification-side description of the peer-address extraction. -/
def beforeChar (c : Char) : Str → Str
  | [] => []
  | a :: rest => if a = c then [] else a :: beforeChar c rest

/-- Push a whole list of lines through the header accumulator, returning the
final accumulator together with the number of `push` calls that returned
`true`. -/
def pushAll (h : EmailHead) : List Str → EmailHead × Nat
  | [] => (h, 0)
  | l :: ls =>
    let (h1, b) := h.push l
    let (h2, n) := pushAll h1 ls
    (h2, (if b then 1 else 0) + n)

/-- Bool-valued check that `pat` occurs as a contiguous subsequence of `s`
(used to state that the error message does not name the real option). -/
def leadsWith : Str → Str → Bool
  | [], _ => true
  | _ :: _, [] => false
  | a :: as, b :: bs => a = b && leadsWith as bs

/-- Occurrence of `pat` as a contiguous run inside `s`. -/
def containsSeq (pat : Str) : Str → Bool
  | [] => leadsWith pat []
  | c :: rest => leadsWith pat (c :: rest) || containsSeq pat rest

/-! ## Lemmas about the splitting primitives -/

theorem splitChar_ne_nil (c : Char) (s : Str) : splitChar c s ≠ [] := by
  match s with
  | [] => simp [splitChar]
  | a :: rest =>
    by_cases h : a = c
    · simp [splitChar, h]
    · simp only [splitChar, if_neg h]
      cases splitChar c rest <;> simp

theorem splitChar_head (c : Char) (s : Str) :
    (splitChar c s).head? = some (beforeChar c s) := by
  induction s with
  | nil => simp [splitChar, beforeChar]
  | cons a rest ih =>
    by_cases h : a = c
    · simp [splitChar, beforeChar, h]
    · simp only [splitChar, beforeChar, if_neg h]
      cases hr : splitChar c rest with
      | nil => exact absurd hr (splitChar_ne_nil c rest)
      | cons s0 ss =>
        rw [hr] at ih
        simp at ih
        simp [ih]

theorem splitChar2_ne_nil (c1 c2 : Char) (s : Str) : splitChar2 c1 c2 s ≠ [] := by
  match s with
  | [] => simp [splitChar2]
  | [a] => simp [splitChar2]
  | a :: b :: rest =>
    by_cases h : a = c1 ∧ b = c2
    · simp [splitChar2, h]
    · simp only [splitChar2, if_neg h]
      cases splitChar2 c1 c2 (b :: rest) <;> simp

theorem splitChar2_eq_break (c1 c2 : Char) (s : Str) :
    splitChar2 c1 c2 s =
      (breakAt2 c1 c2 s).1 ::
        (match (breakAt2 c1 c2 s).2 with
         | none => []
         | some r => splitChar2 c1 c2 r) := by
  induction s with
  | nil => simp [splitChar2, breakAt2]
  | cons a t ih =>
    match t with
    | [] => simp [splitChar2, breakAt2]
    | b :: rest =>
      by_cases h : a = c1 ∧ b = c2
      · simp [splitChar2, breakAt2, h]
      · simp only [splitChar2, breakAt2, if_neg h]
        rw [ih]

/-- When the delimiter occurs in `line`, the key/value pair the code derives
is the part before the first occurrence together with the part of the
remainder before the NEXT occurrence. -/
theorem kvOf_delim (line k rest : Str)
    (hbr : breakAt2 ':' ' ' line = (k, some rest)) :
    kvOf line = (k, (breakAt2 ':' ' ' rest).1) := by
  unfold kvOf
  rw [splitChar2_eq_break ':' ' ' line, hbr]
  simp only
  rw [splitChar2_eq_break ':' ' ' rest]

/-! ## Lemmas about the header accumulator -/

theorem push_done (h : EmailHead) (l : Str) (hd : h.done = true) :
    h.push l = (h, false) := by
  simp [EmailHead.push, hd]

theorem push_not_done (h : EmailHead) (l : Str) (hd : h.done = false) (hl : l ≠ []) :
    h.push l = ({ h with headers := insertA (kvOf l).1 (kvOf l).2 h.headers }, true) := by
  simp [EmailHead.push, hd, List.length_eq_zero, hl]

theorem push_empty (h : EmailHead) (hd : h.done = false) :
    h.push [] = ({ h with done := true }, true) := by
  simp [EmailHead.push, hd]

/-! ## Claim C2 -/

/-- C2 (corrected): pushing a non-empty line containing the delimiter `": "`
with `done` still false inserts exactly one entry and returns `true`; the
key is the part of the line before the first occurrence of `": "`, but the
value is the part of the remainder before the NEXT occurrence of `": "`
(the full remainder only when the delimiter occurs exactly once), because
the code takes the second segment of `line.split(": ")`, not the whole
remainder. -/
theorem push_first_delim_insert (h : EmailHead) (line k rest : Str)
    (hd : h.done = false) (hne : line ≠ [])
    (hbr : breakAt2 ':' ' ' line = (k, some rest)) :
    h.push line =
      ({ h with headers := insertA k ((breakAt2 ':' ' ' rest).1) h.headers }, true) := by
  rw [push_not_done h line hd hne, kvOf_delim line k rest hbr]

/-- Witness for C2's theorem at a concrete input: the line `"a: b"` whose
remainder after the first delimiter is `"b"`. -/
theorem push_first_delim_insert_witness :
    EmailHead.push ⟨[], false⟩ ("a: b".data) =
      ({ headers := insertA ("a".data) ((breakAt2 ':' ' ' ("b".data)).1) [],
         done := false }, true) :=
  push_first_delim_insert ⟨[], false⟩ ("a: b".data) ("a".data) ("b".data) rfl
    (by decide) (by decide)

/-- Counterexample to C2 as stated: for the line `"a: b: c"` the remainder
after the first `": "` is `"b: c"`, but the stored value for key `"a"` is
`"b"` — the push truncates the value at the next occurrence of the
delimiter. -/
theorem push_remainder_value_cex :
    breakAt2 ':' ' ' ("a: b: c".data) = ("a".data, some ("b: c".data))
    ∧ (EmailHead.push ⟨[], false⟩ ("a: b: c".data)).2 = true
    ∧ (EmailHead.push ⟨[], false⟩ ("a: b: c".data)).1.headers = [("a".data, "b".data)]
    ∧ lookupA ("a".data) (EmailHead.push ⟨[], false⟩ ("a: b: c".data)).1.headers
        ≠ some ("b: c".data) := by
  refine ⟨by decide, by decide, by decide, by decide⟩

/-! ## Claims C4 and C10 -/

theorem peerKey_before (peer : Str) : peerKey peer = beforeChar ':' peer := by
  unfold peerKey
  rw [splitChar_head ':' peer]
  rfl

/-- C10: splitting the peer token on `':'` always yields a first segment, so
the `unwrap_or("unknown")` fallback is unreachable and the extracted address
is exactly the part of the peer token before its first `':'` (the whole
token when `':'` does not occur). -/
theorem peer_split_always_some (peer : Str) :
    (splitChar ':' peer).head? = some (beforeChar ':' peer)
    ∧ splitChar ':' peer ≠ []
    ∧ peerKey peer = beforeChar ':' peer :=
  ⟨splitChar_head ':' peer, splitChar_ne_nil ':' peer, peerKey_before peer⟩

/-- C4: on every recognized access line — the line splits on `"] "` into
exactly the marker and a descriptor, and the descriptor splits on single
spaces into the 8-token `from <peer> to <mine> <day> <mon> <date> <time>`
shape — the emitted event's address is the part of the peer token before
its first `':'` (the whole token when `':'` does not occur). -/
theorem parse_extracts_peer_ip (line value peer m d mo da ti : Str)
    (hsplit : splitChar2 ']' ' ' line = [remoteAccessMarker, value])
    (htok : splitChar ' ' value = [fromWord, peer, toWord, m, d, mo, da, ti]) :
    classifyBody line = BodyClass.event (beforeChar ':' peer) := by
  unfold classifyBody
  rw [hsplit]
  simp only [if_pos rfl]
  rw [htok]
  simp [peerKey_before peer]

/-- Witness for C4's theorem at a concrete recognized access line. -/
theorem parse_extracts_peer_ip_witness :
    classifyBody ("[LAN access from remote] from 10.0.0.5:4444 to me Mon Jan 1 00:00:00".data)
      = BodyClass.event (beforeChar ':' ("10.0.0.5:4444".data)) :=
  parse_extracts_peer_ip _ ("from 10.0.0.5:4444 to me Mon Jan 1 00:00:00".data)
    ("10.0.0.5:4444".data) ("me".data) ("Mon".data) ("Jan".data) ("1".data)
    ("00:00:00".data) (by decide) (by decide)

/-! ## Claim C8 -/

/-- C8: a body line that splits on `"] "` into the marker plus a descriptor
that does not have the 8-token `from ... to ...` shape produces no event and
no failure: it is classified as unrecognized, and the parse of the
remaining lines continues exactly as if the line were absent. -/
theorem unrecognized_access_no_event (line value : Str)
    (hsplit : splitChar2 ']' ' ' line = [remoteAccessMarker, value])
    (hshape : isShape8 value = false) :
    classifyBody line = BodyClass.unrecognized
    ∧ ∀ (h : EmailHead) (ls : List Str), h.done = true →
        parseEvents h (line :: ls) = parseEvents h ls := by
  have hclass : classifyBody line = BodyClass.unrecognized := by
    unfold classifyBody
    rw [hsplit]
    simp only [if_pos rfl]
    unfold isShape8 at hshape
    match hv : splitChar ' ' value with
    | [f, peer, t, m, d, mo, da, ti] =>
      rw [hv] at hshape
      simp only [decide_eq_false_iff_not] at hshape
      simp [hshape]
    | [] => rfl
    | [x1] => rfl
    | [x1, x2] => rfl
    | [x1, x2, x3] => rfl
    | [x1, x2, x3, x4] => rfl
    | [x1, x2, x3, x4, x5] => rfl
    | [x1, x2, x3, x4, x5, x6] => rfl
    | [x1, x2, x3, x4, x5, x6, x7] => rfl
    | x1 :: x2 :: x3 :: x4 :: x5 :: x6 :: x7 :: x8 :: x9 :: xs => rfl
  refine ⟨hclass, ?_⟩
  intro h ls hd
  simp only [parseEvents, push_done h line hd, hclass]
  simp

/-- Witness for C8's theorem: a marker line whose descriptor has only three
tokens emits nothing and leaves the tail parse unchanged. -/
theorem unrecognized_access_no_event_witness :
    classifyBody ("[LAN access from remote] from 10.0.0.5 oops".data)
      = BodyClass.unrecognized
    ∧ parseEvents ⟨[], true⟩ ["[LAN access from remote] from 10.0.0.5 oops".data]
        = parseEvents ⟨[], true⟩ [] :=
  ⟨(unrecognized_access_no_event _ ("from 10.0.0.5 oops".data) (by decide) (by decide)).1,
   (unrecognized_access_no_event _ ("from 10.0.0.5 oops".data) (by decide) (by decide)).2
     ⟨[], true⟩ [] rfl⟩

/-! ## Claim C7 -/

/-- The parse loop gives each line exactly one role; a line gets a body role
exactly when the accumulator was already `done` before it (which is when
`push` returns false), and a body-role line carries its own body
classification (it is reclassified, not dropped). -/
theorem parseTrace_cons_done (h : EmailHead) (l : Str) (ls : List Str)
    (hd : h.done = true) :
    parseTrace h (l :: ls)
      = (h, l, LineRole.bodyLine (classifyBody l)) :: parseTrace h ls := by
  simp [parseTrace, push_done h l hd]

theorem parseTrace_cons_not_done (h : EmailHead) (l : Str) (ls : List Str)
    (hd : h.done = false) :
    parseTrace h (l :: ls)
      = (h, l, LineRole.headerLine) :: parseTrace (h.push l).1 ls := by
  have hok : (h.push l).2 = true := by
    by_cases hl : l = []
    · subst hl; rw [push_empty h hd]
    · rw [push_not_done h l hd hl]
  simp only [parseTrace]
  rw [show (h.push l) = ((h.push l).1, (h.push l).2) from rfl, hok]
  simp

theorem parseTrace_spec (lines : List Str) (h : EmailHead) :
    (parseTrace h lines).map (fun e => e.2.1) = lines
    ∧ ∀ e ∈ parseTrace h lines,
        ((∃ c, e.2.2 = LineRole.bodyLine c) ↔ e.1.done = true)
        ∧ (e.1.done = true → e.2.2 = LineRole.bodyLine (classifyBody e.2.1)) := by
  induction lines generalizing h with
  | nil => simp [parseTrace]
  | cons l ls ih =>
    cases hd : h.done with
    | true =>
      rw [parseTrace_cons_done h l ls hd]
      refine ⟨by simpa using (ih h).1, ?_⟩
      intro e he
      rcases List.mem_cons.mp he with rfl | he
      · exact ⟨⟨fun _ => hd, fun _ => ⟨classifyBody l, rfl⟩⟩, fun _ => rfl⟩
      · exact (ih h).2 e he
    | false =>
      rw [parseTrace_cons_not_done h l ls hd]
      refine ⟨by simpa using (ih (h.push l).1).1, ?_⟩
      intro e he
      rcases List.mem_cons.mp he with rfl | he
      · refine ⟨⟨?_, ?_⟩, ?_⟩
        · rintro ⟨c, hc⟩; cases hc
        · intro hcontra; simp only at hcontra; rw [hd] at hcontra; cases hcontra
        · intro hcontra; simp only at hcontra; rw [hd] at hcontra; cases hcontra
      · exact (ih (h.push l).1).2 e he

/-- C7: during the parse of one file (started with a fresh accumulator),
every line appears in the trace with exactly one role and in order; a line
is classified as body exactly when `done` was already true before it (so no
body line precedes the `done` transition, and no line consumed as header is
classified as body); and every body-role line — in particular the first line
on which `push` returns false — carries its body classification rather than
being dropped. -/
theorem parse_header_body_ordered (lines : List Str) :
    (parseTrace ⟨[], false⟩ lines).map (fun e => e.2.1) = lines
    ∧ ∀ e ∈ parseTrace ⟨[], false⟩ lines,
        ((∃ c, e.2.2 = LineRole.bodyLine c) ↔ e.1.done = true)
        ∧ (e.1.done = true → e.2.2 = LineRole.bodyLine (classifyBody e.2.1)) :=
  parseTrace_spec lines ⟨[], false⟩

/-- Witness for C7's theorem: on the file `["", "x"]` the second line is
traced as a body line from a `done` accumulator state. -/
theorem parse_header_body_ordered_witness :
    (⟨⟨[], true⟩, "x".data, LineRole.bodyLine BodyClass.peripheral⟩ :
        EmailHead × Str × LineRole).2.2
      = LineRole.bodyLine (classifyBody ("x".data)) :=
  ((parse_header_body_ordered [[], "x".data]).2
    ⟨⟨[], true⟩, "x".data, LineRole.bodyLine BodyClass.peripheral⟩ (by decide)).2 rfl

/-! ## Association-map lemmas -/

theorem lookupA_insertA (q k : Str) (v : α) (m : List (Str × α)) :
    lookupA q (insertA k v m) = if k = q then some v else lookupA q m := by
  induction m with
  | nil => simp [insertA, lookupA]
  | cons kv rest ih =>
    obtain ⟨k0, v0⟩ := kv
    by_cases h : k0 = k
    · subst h
      by_cases hq : k0 = q <;> simp [insertA, lookupA, hq]
    · by_cases hq : k0 = q
      · subst hq
        have : ¬ k = k0 := fun hc => h hc.symm
        simp [insertA, lookupA, h, this]
      · simp [insertA, lookupA, h, hq, ih]

theorem lookupA_append (q : Str) (xs ys : List (Str × α)) :
    lookupA q (xs ++ ys) =
      match lookupA q xs with
      | some v => some v
      | none => lookupA q ys := by
  induction xs with
  | nil => simp [lookupA]
  | cons kv rest ih =>
    obtain ⟨k0, v0⟩ := kv
    by_cases h : k0 = q <;> simp [lookupA, h, ih]

theorem lookupA_eq_none (q : Str) (m : List (Str × α)) :
    lookupA q m = none ↔ q ∉ keysA m := by
  induction m with
  | nil => simp [lookupA, keysA]
  | cons kv rest ih =>
    obtain ⟨k0, v0⟩ := kv
    by_cases h : k0 = q
    · subst h
      constructor
      · intro hc
        rw [show lookupA k0 ((k0, v0) :: rest)
              = if k0 = k0 then some v0 else lookupA k0 rest from rfl, if_pos rfl] at hc
        cases hc
      · intro hc
        refine absurd ?_ hc
        rw [show keysA ((k0, v0) :: rest) = k0 :: keysA rest from rfl]
        exact List.mem_cons_self k0 (keysA rest)
    · rw [show lookupA q ((k0, v0) :: rest)
            = if k0 = q then some v0 else lookupA q rest from rfl, if_neg h]
      rw [show keysA ((k0, v0) :: rest) = k0 :: keysA rest from rfl, ih]
      constructor
      · intro hq hmem
        rcases List.mem_cons.mp hmem with hc | hc
        · exact h hc.symm
        · exact hq hc
      · intro hq hc
        exact hq (List.mem_cons_of_mem k0 hc)

theorem mem_keysA_insertA (q k : Str) (v : α) (m : List (Str × α)) :
    q ∈ keysA (insertA k v m) → q = k ∨ q ∈ keysA m := by
  induction m with
  | nil => simp [insertA, keysA]
  | cons kv rest ih =>
    obtain ⟨k0, v0⟩ := kv
    by_cases h : k0 = k
    · subst h
      have hrw : insertA k0 v ((k0, v0) :: rest) = (k0, v) :: rest := by
        simp [insertA]
      rw [hrw]
      simp only [keysA, List.map_cons, List.mem_cons]
      rintro (hq | hq)
      · exact Or.inl hq
      · exact Or.inr (Or.inr hq)
    · simp only [insertA, if_neg h, keysA, List.map_cons, List.mem_cons]
      rintro (hq | hq)
      · exact Or.inr (Or.inl hq)
      · rcases ih hq with hq' | hq'
        · exact Or.inl hq'
        · exact Or.inr (Or.inr hq')

theorem keysA_insertA_nodup (k : Str) (v : α) (m : List (Str × α))
    (hm : (keysA m).Nodup) : (keysA (insertA k v m)).Nodup := by
  induction m with
  | nil => simp [insertA, keysA]
  | cons kv rest ih =>
    obtain ⟨k0, v0⟩ := kv
    simp only [keysA, List.map_cons, List.nodup_cons] at hm
    by_cases h : k0 = k
    · subst h
      have hrw : insertA k0 v ((k0, v0) :: rest) = (k0, v) :: rest := by
        simp [insertA]
      rw [hrw]
      simp only [keysA, List.map_cons, List.nodup_cons]
      exact ⟨hm.1, hm.2⟩
    · simp only [insertA, if_neg h, keysA, List.map_cons, List.nodup_cons]
      refine ⟨?_, ih hm.2⟩
      intro hc
      rcases mem_keysA_insertA k0 k v rest hc with hq | hq
      · exact h hq
      · exact hm.1 hq

/-! ## Claim C6 -/

/-- One header-line step of the accumulator map: insert the key/value pair
the code derives from the line. -/
def insKV (m : List (Str × Str)) (l : Str) : List (Str × Str) :=
  insertA (kvOf l).1 (kvOf l).2 m

theorem pushAll_cons (h : EmailHead) (l : Str) (ls : List Str) :
    pushAll h (l :: ls)
      = ((pushAll (h.push l).1 ls).1,
         (if (h.push l).2 = true then 1 else 0) + (pushAll (h.push l).1 ls).2) := by
  simp only [pushAll]

theorem pushAll_not_done (lines : List Str) (h : EmailHead)
    (hne : ∀ l ∈ lines, l ≠ []) (hd : h.done = false) :
    pushAll h lines = (⟨lines.foldl insKV h.headers, false⟩, lines.length) := by
  induction lines generalizing h with
  | nil =>
    cases h with
    | mk hs d => simp only at hd; subst hd; simp [pushAll]
  | cons l ls ih =>
    have hl : l ≠ [] := hne l (List.mem_cons_self l ls)
    have hp : h.push l = ({ h with headers := insKV h.headers l }, true) :=
      push_not_done h l hd hl
    rw [pushAll_cons, hp]
    simp only
    rw [ih { h with headers := insKV h.headers l }
        (fun x hx => hne x (List.mem_cons_of_mem l hx)) hd]
    simp [List.foldl_cons, Nat.add_comm]

theorem pushAll_append (xs ys : List Str) (h : EmailHead) :
    pushAll h (xs ++ ys)
      = ((pushAll (pushAll h xs).1 ys).1,
         (pushAll h xs).2 + (pushAll (pushAll h xs).1 ys).2) := by
  induction xs generalizing h with
  | nil => simp [pushAll]
  | cons l xs ih =>
    simp only [List.cons_append]
    rw [pushAll_cons, pushAll_cons h l xs, ih (h.push l).1]
    simp [Nat.add_assoc]

theorem lookupA_foldl_insKV (lines : List Str) (m : List (Str × Str)) (q : Str) :
    lookupA q (lines.foldl insKV m) =
      match lookupA q ((lines.map kvOf).reverse) with
      | some v => some v
      | none => lookupA q m := by
  induction lines generalizing m with
  | nil => simp [lookupA]
  | cons l ls ih =>
    simp only [List.foldl_cons, List.map_cons, List.reverse_cons]
    rw [ih (insKV m l), lookupA_append q ((ls.map kvOf).reverse) [kvOf l]]
    rcases hr : lookupA q ((ls.map kvOf).reverse) with _ | v
    · simp only
      rcases hkv : kvOf l with ⟨a, b⟩
      by_cases hq : a = q <;>
        simp [insKV, lookupA_insertA, lookupA, hkv, hq]
    · simp

theorem keysA_foldl_insKV_nodup (lines : List Str) (m : List (Str × Str))
    (hm : (keysA m).Nodup) : (keysA (lines.foldl insKV m)).Nodup := by
  induction lines generalizing m with
  | nil => exact hm
  | cons l ls ih =>
    exact ih (insKV m l) (keysA_insertA_nodup (kvOf l).1 (kvOf l).2 m hm)

/-- C6: for a well-formed header block — non-empty lines each containing the
delimiter `": "`, terminated by the first empty line — every `push` call of
the block returns true, so the count of true returns is the number of header
lines plus one; afterwards the accumulator is `done`, its map has no
duplicate keys (exactly one entry per distinct key), and the value stored
under a key is the one derived from the LAST block line with that key
(lookup in the reversed list of per-line key/value pairs). -/
theorem header_block_push_count (lines : List Str)
    (hne : ∀ l ∈ lines, l ≠ [])
    (_hdelim : ∀ l ∈ lines, (breakAt2 ':' ' ' l).2 ≠ none) :
    (pushAll ⟨[], false⟩ (lines ++ [[]])).2 = lines.length + 1
    ∧ (pushAll ⟨[], false⟩ (lines ++ [[]])).1.done = true
    ∧ (keysA (pushAll ⟨[], false⟩ (lines ++ [[]])).1.headers).Nodup
    ∧ ∀ k, lookupA k (pushAll ⟨[], false⟩ (lines ++ [[]])).1.headers
          = lookupA k ((lines.map kvOf).reverse) := by
  have hstep : pushAll ⟨[], false⟩ (lines ++ [[]])
      = (⟨lines.foldl insKV [], true⟩, lines.length + 1) := by
    have happ := pushAll_append lines [[]] ⟨[], false⟩
    rw [pushAll_not_done lines ⟨[], false⟩ hne rfl] at happ
    simp only at happ
    have hone : pushAll (⟨lines.foldl insKV [], false⟩ : EmailHead) [[]]
        = (⟨lines.foldl insKV [], true⟩, 1) := by
      rw [pushAll_cons, push_empty _ rfl]
      simp [pushAll]
    rw [hone] at happ
    simpa using happ
  rw [hstep]
  refine ⟨rfl, rfl, ?_, ?_⟩
  · exact keysA_foldl_insKV_nodup lines [] (by simp [keysA])
  · intro k
    rw [lookupA_foldl_insKV lines [] k]
    rcases hr : lookupA k ((lines.map kvOf).reverse) with _ | v <;> simp [lookupA]

/-- Witness for C6's theorem at a concrete block with a duplicated key. -/
theorem header_block_push_count_witness :
    (pushAll ⟨[], false⟩ (["a: 1".data, "b: 2".data, "a: 3".data] ++ [[]])).2 = 4
    ∧ lookupA ("a".data)
        (pushAll ⟨[], false⟩ (["a: 1".data, "b: 2".data, "a: 3".data] ++ [[]])).1.headers
      = lookupA ("a".data) ((["a: 1".data, "b: 2".data, "a: 3".data].map kvOf).reverse) :=
  ⟨(header_block_push_count ["a: 1".data, "b: 2".data, "a: 3".data]
      (by decide) (by decide)).1,
   (header_block_push_count ["a: 1".data, "b: 2".data, "a: 3".data]
      (by decide) (by decide)).2.2.2 ("a".data)⟩

/-! ## Lemmas about removal and the aggregator step -/

theorem removeA_fst (k : Str) (m : List (Str × α)) :
    (removeA k m).1 = lookupA k m := by
  induction m with
  | nil => rfl
  | cons kv rest ih =>
    obtain ⟨k0, v0⟩ := kv
    by_cases h : k0 = k <;> simp [removeA, lookupA, h, ih]

theorem lookupA_removeA_ne (q k : Str) (m : List (Str × α)) (hqk : q ≠ k) :
    lookupA q (removeA k m).2 = lookupA q m := by
  induction m with
  | nil => rfl
  | cons kv rest ih =>
    obtain ⟨k0, v0⟩ := kv
    by_cases h : k0 = k
    · have hkq : ¬ k = q := fun hc => hqk hc.symm
      simp [removeA, lookupA, h, hkq]
    · simp [removeA, lookupA, h, ih]

theorem mem_keysA_removeA (q k : Str) (m : List (Str × α)) :
    q ∈ keysA (removeA k m).2 → q ∈ keysA m := by
  induction m with
  | nil => simp [removeA]
  | cons kv rest ih =>
    obtain ⟨k0, v0⟩ := kv
    rw [show keysA ((k0, v0) :: rest) = k0 :: keysA rest from rfl]
    by_cases h : k0 = k
    · intro hq
      have hrw : (removeA k ((k0, v0) :: rest)).2 = rest := by simp [removeA, h]
      rw [hrw] at hq
      exact List.mem_cons_of_mem k0 hq
    · intro hq
      have hrw : (removeA k ((k0, v0) :: rest)).2 = (k0, v0) :: (removeA k rest).2 := by
        simp [removeA, h]
      rw [hrw, show keysA ((k0, v0) :: (removeA k rest).2)
            = k0 :: keysA (removeA k rest).2 from rfl] at hq
      rcases List.mem_cons.mp hq with hc | hc
      · exact hc ▸ List.mem_cons_self k0 (keysA rest)
      · exact List.mem_cons_of_mem k0 (ih hc)

theorem lookupA_removeA_self (k : Str) (m : List (Str × α))
    (hm : (keysA m).Nodup) : lookupA k (removeA k m).2 = none := by
  induction m with
  | nil => rfl
  | cons kv rest ih =>
    obtain ⟨k0, v0⟩ := kv
    rw [show keysA ((k0, v0) :: rest) = k0 :: keysA rest from rfl,
      List.nodup_cons] at hm
    by_cases h : k0 = k
    · have hrw : (removeA k ((k0, v0) :: rest)).2 = rest := by simp [removeA, h]
      rw [hrw]
      exact (lookupA_eq_none k rest).mpr (h ▸ hm.1)
    · have hrw : (removeA k ((k0, v0) :: rest)).2 = (k0, v0) :: (removeA k rest).2 := by
        simp [removeA, h]
      rw [hrw, show lookupA k ((k0, v0) :: (removeA k rest).2)
            = if k0 = k then some v0 else lookupA k (removeA k rest).2 from rfl,
        if_neg h]
      exact ih hm.2

theorem keysA_removeA_nodup (k : Str) (m : List (Str × α))
    (hm : (keysA m).Nodup) : (keysA (removeA k m).2).Nodup := by
  induction m with
  | nil => simp [removeA, keysA]
  | cons kv rest ih =>
    obtain ⟨k0, v0⟩ := kv
    rw [show keysA ((k0, v0) :: rest) = k0 :: keysA rest from rfl,
      List.nodup_cons] at hm
    by_cases h : k0 = k
    · have hrw : (removeA k ((k0, v0) :: rest)).2 = rest := by simp [removeA, h]
      rw [hrw]
      exact hm.2
    · have hrw : (removeA k ((k0, v0) :: rest)).2 = (k0, v0) :: (removeA k rest).2 := by
        simp [removeA, h]
      rw [hrw, show keysA ((k0, v0) :: (removeA k rest).2)
            = k0 :: keysA (removeA k rest).2 from rfl, List.nodup_cons]
      exact ⟨fun hc => hm.1 (mem_keysA_removeA k0 k rest hc), ih hm.2⟩

theorem keysA_append (xs ys : List (Str × α)) :
    keysA (xs ++ ys) = keysA xs ++ keysA ys := by
  simp [keysA]

theorem aggStep_eq (m : List (Str × Nat)) (r : RemoteAccess) :
    aggStep m r = (removeA r.address m).2
      ++ [(r.address, (((removeA r.address m).1).getD 0 + 1) % 2^32)] := by
  simp only [aggStep]

theorem lookupA_aggStep_self (m : List (Str × Nat)) (r : RemoteAccess)
    (hm : (keysA m).Nodup) :
    lookupA r.address (aggStep m r)
      = some (((lookupA r.address m).getD 0 + 1) % 2^32) := by
  rw [aggStep_eq, lookupA_append, lookupA_removeA_self r.address m hm, removeA_fst]
  simp [lookupA]

theorem lookupA_aggStep_ne (m : List (Str × Nat)) (r : RemoteAccess) (q : Str)
    (hq : q ≠ r.address) :
    lookupA q (aggStep m r) = lookupA q m := by
  rw [aggStep_eq, lookupA_append, lookupA_removeA_ne q r.address m hq]
  have hne : ¬ r.address = q := fun hc => hq hc.symm
  cases hl : lookupA q m <;> simp [lookupA, hne]

theorem keysA_aggStep_nodup (m : List (Str × Nat)) (r : RemoteAccess)
    (hm : (keysA m).Nodup) : (keysA (aggStep m r)).Nodup := by
  have hx := keysA_removeA_nodup r.address m hm
  have hmem : r.address ∉ keysA (removeA r.address m).2 :=
    (lookupA_eq_none _ _).mp (lookupA_removeA_self r.address m hm)
  rw [aggStep_eq, keysA_append,
    show keysA [(r.address, (((removeA r.address m).1).getD 0 + 1) % 2^32)]
      = [r.address] from rfl]
  refine List.Nodup.append hx (List.nodup_singleton _) ?_
  intro x hx1 hx2
  rw [List.mem_singleton] at hx2
  exact hmem (hx2 ▸ hx1)

/-! ## Claim C5 -/

theorem lookupA_foldl_aggStep_some (evs : List RemoteAccess)
    (m : List (Str × Nat)) (a : Str) (c : Nat)
    (hm : (keysA m).Nodup) (hcw : c < 2^32) (hc : lookupA a m = some c) :
    lookupA a (evs.foldl aggStep m) = some ((c + countAddr a evs) % 2^32) := by
  induction evs generalizing m c with
  | nil =>
    rw [List.foldl_nil, hc]
    simp only [countAddr, Nat.add_zero, Option.some.injEq]
    rw [Nat.mod_eq_of_lt hcw]
  | cons r rest ih =>
    simp only [List.foldl_cons]
    by_cases ha : r.address = a
    · have hstep : lookupA a (aggStep m r) = some ((c + 1) % 2^32) := by
        rw [← ha] at hc ⊢
        rw [lookupA_aggStep_self m r hm, hc]
        rfl
      have hcw' : (c + 1) % 2^32 < 2^32 := Nat.mod_lt _ (by norm_num)
      have hrec := ih (aggStep m r) ((c + 1) % 2^32)
        (keysA_aggStep_nodup m r hm) hcw' hstep
      rw [hrec, Nat.mod_add_mod]
      have hcnt : countAddr a (r :: rest) = 1 + countAddr a rest := by
        simp [countAddr, ha]
      rw [hcnt, show c + 1 + countAddr a rest = c + (1 + countAddr a rest) from by omega]
    · have hstep : lookupA a (aggStep m r) = some c := by
        rw [lookupA_aggStep_ne m r a (fun hcc => ha hcc.symm)]
        exact hc
      have hrec := ih (aggStep m r) c (keysA_aggStep_nodup m r hm) hcw hstep
      rw [hrec]
      simp [countAddr, ha]

theorem lookupA_foldl_aggStep_none (evs : List RemoteAccess)
    (m : List (Str × Nat)) (a : Str)
    (hm : (keysA m).Nodup) (hc : lookupA a m = none) :
    lookupA a (evs.foldl aggStep m)
      = if countAddr a evs = 0 then none
        else some (countAddr a evs % 2^32) := by
  induction evs generalizing m with
  | nil => simpa [countAddr] using hc
  | cons r rest ih =>
    simp only [List.foldl_cons]
    by_cases ha : r.address = a
    · have hstep : lookupA a (aggStep m r) = some 1 := by
        rw [← ha] at hc ⊢
        rw [lookupA_aggStep_self m r hm, hc]
        simp only [Option.getD_none]
        norm_num
      have hrec := lookupA_foldl_aggStep_some rest (aggStep m r) a 1
        (keysA_aggStep_nodup m r hm) (by norm_num) hstep
      rw [hrec]
      have hcnt : countAddr a (r :: rest) = 1 + countAddr a rest := by
        simp [countAddr, ha]
      rw [hcnt, if_neg (by omega)]
    · have hstep : lookupA a (aggStep m r) = none := by
        rw [lookupA_aggStep_ne m r a (fun hcc => ha hcc.symm)]
        exact hc
      have hrec := ih (aggStep m r) (keysA_aggStep_nodup m r hm) hstep
      rw [hrec]
      simp [countAddr, ha]

theorem keysA_foldl_aggStep_nodup (evs : List RemoteAccess)
    (m : List (Str × Nat)) (hm : (keysA m).Nodup) :
    (keysA (evs.foldl aggStep m)).Nodup := by
  induction evs generalizing m with
  | nil => exact hm
  | cons r rest ih =>
    exact ih (aggStep m r) (keysA_aggStep_nodup m r hm)

/-- C5 (corrected): after the aggregator drains a finite event sequence,
the count table maps every address with at least one event to its event
count reduced modulo `2^32` (the `u32` counter wraps), which equals the
exact event count whenever that address has fewer than `2^32` events; and
it holds no entry at all for an address with zero events. -/
theorem aggregator_counts_exact (evs : List RemoteAccess) (a : Str) :
    (lookupA a (aggregate evs)
      = if countAddr a evs = 0 then none
        else some (countAddr a evs % 2^32))
    ∧ (countAddr a evs < 2^32 →
        lookupA a (aggregate evs)
          = if countAddr a evs = 0 then none
            else some (countAddr a evs)) := by
  have h := lookupA_foldl_aggStep_none evs [] a (by simp [keysA]) rfl
  have h1 : lookupA a (aggregate evs)
      = if countAddr a evs = 0 then none
        else some (countAddr a evs % 2^32) := by
    simpa [aggregate] using h
  refine ⟨h1, fun hlt => ?_⟩
  rw [h1, Nat.mod_eq_of_lt hlt]

/-- Witness for C5's theorem: two events below the wrap give the exact
count. -/
theorem aggregator_counts_exact_witness :
    lookupA ("a".data)
        (aggregate [RemoteAccess.mk ("a".data), RemoteAccess.mk ("a".data)])
      = if countAddr ("a".data)
            [RemoteAccess.mk ("a".data), RemoteAccess.mk ("a".data)] = 0
        then none
        else some (countAddr ("a".data)
            [RemoteAccess.mk ("a".data), RemoteAccess.mk ("a".data)]) :=
  (aggregator_counts_exact
    [RemoteAccess.mk ("a".data), RemoteAccess.mk ("a".data)] ("a".data)).2
    (by decide)

theorem countAddr_replicate (n : Nat) (a : Str) :
    countAddr a (List.replicate n (RemoteAccess.mk a)) = n := by
  induction n with
  | zero => rfl
  | succ k ih => simp [List.replicate_succ, countAddr, ih, Nat.add_comm]

theorem foldl_aggStep_replicate (n : Nat) (a : Str) (c : Nat) :
    List.foldl aggStep [(a, c % 2^32)] (List.replicate n (RemoteAccess.mk a))
      = [(a, (c + n) % 2^32)] := by
  induction n generalizing c with
  | zero => simp
  | succ k ih =>
    rw [List.replicate_succ, List.foldl_cons]
    have hstep : aggStep [(a, c % 2^32)] (RemoteAccess.mk a)
        = [(a, (c + 1) % 2^32)] := by
      simp [aggStep, removeA, Nat.mod_add_mod]
    rw [hstep, show c + (k + 1) = (c + 1) + k from by omega]
    exact ih (c + 1)

theorem aggregate_replicate (n : Nat) (a : Str) :
    aggregate (List.replicate (n + 1) (RemoteAccess.mk a))
      = [(a, (n + 1) % 2^32)] := by
  unfold aggregate
  rw [List.replicate_succ, List.foldl_cons]
  have hstep : aggStep [] (RemoteAccess.mk a) = [(a, 1 % 2^32)] := by
    simp [aggStep, removeA]
  rw [hstep, show n + 1 = 1 + n from by omega]
  exact foldl_aggStep_replicate n a 1

/-- Counterexample to C5 as stated: `2^32` events for one address leave the
wrapped `u32` count `0` in the table, not `2^32` — `CountTable[A] == N`
fails at `N = 2^32`. -/
theorem aggregator_wrap_cex :
    countAddr ("a".data)
        (List.replicate (2^32) (RemoteAccess.mk ("a".data))) = 2^32
    ∧ lookupA ("a".data)
        (aggregate (List.replicate (2^32) (RemoteAccess.mk ("a".data))))
        = some 0
    ∧ some (0 : Nat) ≠ some (2^32) := by
  refine ⟨countAddr_replicate _ _, ?_, by decide⟩
  have h := aggregate_replicate (2^32 - 1) ("a".data)
  rw [show (2 : Nat)^32 - 1 + 1 = 2^32 from by norm_num] at h
  rw [h, Nat.mod_self]
  simp [lookupA]

/-! ## Claim C3 -/

theorem wrap32i_succ (a : Int) : wrap32i (wrap32i a + 1) = wrap32i (a + 1) := by
  unfold wrap32i
  omega

theorem reportLoop_eq (m : List (Str × Nat)) :
    reportLoop m
      = (m.filter (fun kv => decide (100 < kv.2)),
         wrap32i ((m.filter (fun kv => decide (kv.2 ≤ 100))).length : Int)) := by
  induction m with
  | nil =>
    have h0 : wrap32i 0 = 0 := by decide
    simp [reportLoop, h0]
  | cons kv rest ih =>
    obtain ⟨k, v⟩ := kv
    by_cases h : 100 < v
    · simp [reportLoop, ih, h, Nat.not_le.mpr h]
    · simp [reportLoop, ih, h, Nat.not_lt.mp h, wrap32i_succ]

theorem mem_iff_lookupA (m : List (Str × α)) (k : Str) (v : α)
    (hm : (keysA m).Nodup) : (k, v) ∈ m ↔ lookupA k m = some v := by
  induction m with
  | nil => simp [lookupA]
  | cons kv rest ih =>
    obtain ⟨k0, v0⟩ := kv
    rw [show keysA ((k0, v0) :: rest) = k0 :: keysA rest from rfl,
      List.nodup_cons] at hm
    by_cases h : k0 = k
    · subst h
      rw [show lookupA k0 ((k0, v0) :: rest)
            = if k0 = k0 then some v0 else lookupA k0 rest from rfl, if_pos rfl]
      constructor
      · intro h1
        rcases List.mem_cons.mp h1 with hc | hc
        · rw [(Prod.mk.injEq _ _ _ _).mp hc.symm |>.2]
        · exact absurd (List.mem_map_of_mem (fun kv => kv.1) hc) hm.1
      · intro h1
        rw [show v0 = v from Option.some.inj h1]
        exact List.mem_cons_self _ _
    · rw [show lookupA k ((k0, v0) :: rest)
            = if k0 = k then some v0 else lookupA k rest from rfl, if_neg h,
        ← ih hm.2]
      constructor
      · intro h1
        rcases List.mem_cons.mp h1 with hc | hc
        · exact absurd ((Prod.mk.injEq _ _ _ _).mp hc).1.symm h
        · exact hc
      · exact fun h1 => List.mem_cons_of_mem _ h1

/-- C3 (corrected): in the final report an address is printed, with its
stored count, exactly when that stored count — the total event count
reduced modulo `2^32` by the `u32` counter, equal to the total whenever the
address has fewer than `2^32` events — strictly exceeds 100; the hidden
tally is the signed-32-bit wrap of the number of table entries at or below
the threshold; the table has one entry per distinct observed address (keys
without duplicates, an entry exactly for the addresses with at least one
event), so the summary's total is the number of distinct addresses
observed; and at the boundary a 100-count entry is hidden while a 101-count
entry is printed. -/
theorem report_threshold (evs : List RemoteAccess) (a : Str) :
    ((a, countAddr a evs % 2^32) ∈ (reportLoop (aggregate evs)).1
        ↔ 100 < countAddr a evs % 2^32)
    ∧ (reportLoop (aggregate evs)).2
        = wrap32i (((aggregate evs).filter
            (fun kv => decide (kv.2 ≤ 100))).length : Int)
    ∧ (keysA (aggregate evs)).Nodup
    ∧ (a ∈ keysA (aggregate evs) ↔ 0 < countAddr a evs)
    ∧ reportLoop [("h".data, 100), ("p".data, 101)] = ([("p".data, 101)], 1) := by
  have hnodup : (keysA (aggregate evs)).Nodup :=
    keysA_foldl_aggStep_nodup evs [] (by simp [keysA])
  have hlook : lookupA a (aggregate evs)
      = if countAddr a evs = 0 then none
        else some (countAddr a evs % 2^32) :=
    lookupA_foldl_aggStep_none evs [] a (by simp [keysA]) rfl
  refine ⟨?_, ?_, hnodup, ?_, by decide⟩
  · rw [reportLoop_eq]
    simp only [List.mem_filter, decide_eq_true_eq]
    constructor
    · exact fun h1 => h1.2
    · intro h1
      have hne : countAddr a evs ≠ 0 := by
        intro h0
        rw [h0] at h1
        norm_num at h1
      have hsome : lookupA a (aggregate evs)
          = some (countAddr a evs % 2^32) := by
        rw [hlook, if_neg hne]
      exact ⟨(mem_iff_lookupA (aggregate evs) a
        (countAddr a evs % 2^32) hnodup).mpr hsome, h1⟩
  · rw [reportLoop_eq]
  · constructor
    · intro h1
      by_contra hz
      have hzero : countAddr a evs = 0 := by omega
      have : lookupA a (aggregate evs) = none := by rw [hlook, if_pos hzero]
      exact (lookupA_eq_none a (aggregate evs)).mp this h1
    · intro h1
      have hne : countAddr a evs ≠ 0 := by omega
      by_contra hmem
      have : lookupA a (aggregate evs) = none := (lookupA_eq_none a _).mpr hmem
      rw [hlook, if_neg hne] at this
      cases this

/-- Counterexample to C3 as stated: an address with `2^32 + 50` events —
far above the visibility threshold — is stored with the wrapped `u32`
count 50, so it is NOT printed and is tallied as hidden. -/
theorem report_wrap_cex :
    100 < countAddr ("a".data)
        (List.replicate (2^32 + 50) (RemoteAccess.mk ("a".data)))
    ∧ (reportLoop (aggregate
        (List.replicate (2^32 + 50) (RemoteAccess.mk ("a".data))))).1 = []
    ∧ (reportLoop (aggregate
        (List.replicate (2^32 + 50) (RemoteAccess.mk ("a".data))))).2 = 1 := by
  have h := aggregate_replicate (2^32 + 49) ("a".data)
  rw [show (2 : Nat)^32 + 49 + 1 = 2^32 + 50 from by norm_num] at h
  rw [show ((2 : Nat)^32 + 50) % 2^32 = 50 from by decide] at h
  refine ⟨?_, ?_, ?_⟩
  · rw [countAddr_replicate]
    norm_num
  · rw [h]
    decide
  · rw [h]
    decide

/-! ## Claim C1 -/

theorem runEvents_append (xs ys : List FileInput) :
    runEvents (xs ++ ys) = runEvents xs ++ runEvents ys := by
  simp [runEvents]

/-- C1 (corrected): a file whose OPEN fails makes its own parse task return
`Err` with that I/O error and contribute no events, while a failed LINE READ
merely ends that file's loop early and the task returns `Ok`; in either case
the failure is isolated — a run over any file list containing an unopenable
file aggregates exactly as the same run without it, and sibling files'
events are all preserved. -/
theorem io_failure_isolated :
    (∀ e, parseFile (FileInput.unopenable e) = ([], Except.error e))
    ∧ (∀ ls, (parseFile (FileInput.lines ls)).2 = Except.ok ())
    ∧ (∀ pre post e,
        runModel (pre ++ FileInput.unopenable e :: post) = runModel (pre ++ post)) := by
  refine ⟨fun e => rfl, fun ls => rfl, ?_⟩
  intro pre post e
  unfold runModel
  rw [show FileInput.unopenable e :: post = [FileInput.unopenable e] ++ post from rfl,
    runEvents_append, runEvents_append, runEvents_append]
  simp [runEvents, parseFile]

/-- Counterexample to C1 as stated: a file that opens but whose very first
line read fails makes `parse` return `Ok(())`, not an I/O error — the
`while let Some(Ok(line))` loop simply stops at the failed read. -/
theorem io_read_error_cex :
    (parseFile (FileInput.lines [Except.error ⟨"read failure".data⟩])).2
      = Except.ok () := rfl

/-! ## Claim C9 -/

/-- C9: a missing `--input-dir` value, or a value that is not a directory,
makes the run fail before any directory entry is consulted — `runFull`
returns the fixed configuration error for EVERY possible directory-listing
environment.  However, the error message is the misspelled
`no '--input-dur'`: it does not contain the actual option name
`--input-dir` (the code slip behind the code_bug verdict). -/
theorem config_error_before_scan :
    (∀ (isDir : Str → Bool) (dirContents : Str → List FileInput) (p : Bool),
        runFull isDir ⟨⟨p, none⟩⟩ dirContents = Except.error ⟨configErrMsg⟩)
    ∧ (∀ (isDir : Str → Bool) (dirContents : Str → List FileInput) (p : Bool)
        (d : Str), isDir d = false →
        runFull isDir ⟨⟨p, some d⟩⟩ dirContents = Except.error ⟨configErrMsg⟩)
    ∧ containsSeq ("--input-dir".data) configErrMsg = false
    ∧ containsSeq ("--input-dur".data) configErrMsg = true := by
  refine ⟨fun isDir dirContents p => rfl, ?_, by decide, by decide⟩
  intro isDir dirContents p d hd
  unfold runFull configDir
  simp [hd]

/-- Witness for C9's theorem: a concrete non-directory path is rejected
before the (non-empty) directory listing is touched. -/
theorem config_error_before_scan_witness :
    runFull (fun _ => false) ⟨⟨false, some ("nope".data)⟩⟩
        (fun _ => [FileInput.lines [Except.ok ("x".data)]])
      = Except.error ⟨configErrMsg⟩ :=
  config_error_before_scan.2.1 (fun _ => false)
    (fun _ => [FileInput.lines [Except.ok ("x".data)]]) false ("nope".data) rfl

end Rupert
